import Mathlib

/-!
Verification of the LoaderSpot repository (CLI `src/LoaderSpot_CLI/src/main.rs`
and UI `src/LoaderSpot_UI/src/main.rs`) against its specification.

Strings from the Rust source are embedded as `List Char` (`Str`); machine
integers are embedded as `Nat`/`Int` with explicit bounds where the Rust
types (`u32`, `i32`) can overflow.  Network effects are abstracted into a
probe oracle `PlatformArch → Nat → Bool`; the sequential structure of the
schedulers is kept (results of a scan are linearised in dispatch order,
which is irrelevant to the aggregation and coverage properties proved here).
-/

set_option maxRecDepth 10000

/-- Character strings of the Rust source, embedded as lists of characters. -/
abbrev Str := List Char

/-- Decimal value of a digit character (`c as u32 - '0' as u32`). -/
def digitVal (c : Char) : Nat := c.toNat - 48

/-- Value of a big-endian all-digit string, as Rust's unsigned decimal
parsing computes it. -/
def digitsToNat (s : Str) : Nat := s.foldl (fun a c => 10 * a + digitVal c) 0

/-- The digit-string core of Rust unsigned integer parsing: a nonempty
all-digit string yields its value, anything else fails. -/
def parseDigits (s : Str) : Option Nat :=
  if s ≠ [] ∧ s.all Char.isDigit then some (digitsToNat s) else none

/-- Embeds Rust `u32::from_str` (`"…".parse::<u32>()`): an optional leading
`'+'`, then one or more ASCII digits, rejecting values above `u32::MAX`. -/
def parseU32 (s : Str) : Option Nat :=
  let body := match s with
    | '+' :: rest => rest
    | _ => s
  match parseDigits body with
  | some n => if n < 4294967296 then some n else none
  | none => none

/-- Embeds Rust `i32::from_str`: an optional sign, digits, and the `i32`
range check. -/
def parseI32 (s : Str) : Option Int :=
  match s with
  | '+' :: rest =>
    match parseDigits rest with
    | some n => if n ≤ 2147483647 then some (n : Int) else none
    | none => none
  | '-' :: rest =>
    match parseDigits rest with
    | some n => if n ≤ 2147483648 then some (-(n : Int)) else none
    | none => none
  | _ =>
    match parseDigits s with
    | some n => if n ≤ 2147483647 then some (n : Int) else none
    | none => none

/-- Embeds Rust `str::split('.')`, which always yields at least one piece
(splitting the empty string gives one empty piece). -/
def splitDot : Str → List Str
  | [] => [[]]
  | c :: rest =>
    if c = '.' then [] :: splitDot rest
    else
      match splitDot rest with
      | h :: t => (c :: h) :: t
      | [] => [[c]]

/-- Rust tuple comparison `(a, b, c) <= (x, y, z)` on `u32` triples
(lexicographic, as derived `PartialOrd` on tuples). -/
def lexLe (a b c x y z : Nat) : Bool :=
  decide (a < x ∨ (a = x ∧ (b < y ∨ (b = y ∧ c ≤ z))))

/-- Embeds `extract_base_version` (CLI, main.rs lines 59-66): keep the first
three dot-separated components when there are at least three, otherwise the
whole version string. -/
def extract_base_version (v : Str) : Str :=
  match splitDot v with
  | a :: b :: c :: _ => a ++ '.' :: b ++ '.' :: c
  | _ => v

/-- Embeds `should_use_win_x86` (CLI, main.rs lines 68-82): re-split the
base version; if the first three components parse as `u32`, compare the
triple against the cutoff `(1, 2, 53)`; otherwise fail open (`true`). -/
def should_use_win_x86 (v : Str) : Bool :=
  match splitDot (extract_base_version v) with
  | a :: b :: c :: _ =>
    match parseU32 a, parseU32 b, parseU32 c with
    | some x, some y, some z => lexLe x y z 1 2 53
    | _, _, _ => true
  | _ => true

/-- Embeds `should_use_win_x86` (UI, main.rs lines 85-96): take the first
three pieces of `version.split('.')` directly. -/
def should_use_win_x86_ui (v : Str) : Bool :=
  match splitDot v with
  | a :: b :: c :: _ =>
    match parseU32 a, parseU32 b, parseU32 c with
    | some x, some y, some z => lexLe x y z 1 2 53
    | _, _, _ => true
  | _ => true

/-- The first three dot-separated components of a version string, when all
three parse as `u32`. Used to state the policy-cutoff property. -/
def firstThreeNums (v : Str) : Option (Nat × Nat × Nat) :=
  match splitDot v with
  | a :: b :: c :: _ =>
    match parseU32 a, parseU32 b, parseU32 c with
    | some x, some y, some z => some (x, y, z)
    | _, _, _ => none
  | _ => none

theorem splitDot_ne_nil (s : Str) : splitDot s ≠ [] := by
  cases s with
  | nil => simp [splitDot]
  | cons c rest =>
    by_cases h : c = '.'
    · simp [splitDot, h]
    · cases hr : splitDot rest with
      | nil => simp [splitDot, h, hr]
      | cons a t => simp [splitDot, h, hr]

theorem splitDot_cons_ne {c : Char} {s : Str} (hc : c ≠ '.') {h : Str}
    {t : List Str} (he : splitDot s = h :: t) :
    splitDot (c :: s) = (c :: h) :: t := by
  simp [splitDot, hc, he]

theorem mem_splitDot_no_dot (s : Str) : ∀ x ∈ splitDot s, '.' ∉ x := by
  induction s with
  | nil =>
    intro x hx
    simp [splitDot] at hx
    simp [hx]
  | cons c rest ih =>
    intro x hx
    by_cases h : c = '.'
    · subst h
      rw [show splitDot ('.' :: rest) = [] :: splitDot rest from by
        simp [splitDot]] at hx
      cases List.mem_cons.mp hx with
      | inl h1 => simp [h1]
      | inr h2 => exact ih x h2
    · cases he : splitDot rest with
      | nil => exact absurd he (splitDot_ne_nil rest)
      | cons a t =>
        rw [splitDot_cons_ne h he] at hx
        cases List.mem_cons.mp hx with
        | inl h1 =>
          subst h1
          intro hmem
          cases List.mem_cons.mp hmem with
          | inl h3 => exact h h3.symm
          | inr h3 => exact ih a (by rw [he]; exact List.mem_cons_self a t) h3
        | inr h2 => exact ih x (by rw [he]; exact List.mem_cons_of_mem a h2)

theorem splitDot_append_dot (a r : Str) (ha : '.' ∉ a) :
    splitDot (a ++ '.' :: r) = a :: splitDot r := by
  induction a with
  | nil => simp [splitDot]
  | cons c rest ih =>
    have hc : c ≠ '.' := by
      intro h
      exact ha (by simp [h])
    have hrest : '.' ∉ rest := fun h => ha (List.mem_cons_of_mem c h)
    rw [List.cons_append, splitDot_cons_ne hc (ih hrest)]

theorem splitDot_no_dot (s : Str) (hs : '.' ∉ s) : splitDot s = [s] := by
  induction s with
  | nil => simp [splitDot]
  | cons c rest ih =>
    have hc : c ≠ '.' := by
      intro h
      exact hs (by simp [h])
    have hrest : '.' ∉ rest := fun h => hs (List.mem_cons_of_mem c h)
    rw [splitDot_cons_ne hc (ih hrest)]

/-- The UI policy function expressed through `firstThreeNums`. -/
theorem ui_eq_first (v : Str) : should_use_win_x86_ui v =
    (match firstThreeNums v with
     | some (x, y, z) => lexLe x y z 1 2 53
     | none => true) := by
  rcases hsd : splitDot v with _ | ⟨a, t⟩
  · simp [should_use_win_x86_ui, firstThreeNums, hsd]
  rcases t with _ | ⟨b, t2⟩
  · simp [should_use_win_x86_ui, firstThreeNums, hsd]
  rcases t2 with _ | ⟨c, t3⟩
  · simp [should_use_win_x86_ui, firstThreeNums, hsd]
  rcases hpa : parseU32 a with _ | na <;>
    rcases hpb : parseU32 b with _ | nb <;>
      rcases hpc : parseU32 c with _ | nc <;>
        simp [should_use_win_x86_ui, firstThreeNums, hsd, hpa, hpb, hpc]

/-- Both policy functions agree with the canonical "first three components"
reading. -/
theorem should_use_eq_ui (v : Str) :
    should_use_win_x86 v = should_use_win_x86_ui v := by
  cases he : splitDot v with
  | nil => exact absurd he (splitDot_ne_nil v)
  | cons a t =>
  cases t with
  | nil =>
    have hx : extract_base_version v = v := by
      simp [extract_base_version, he]
    simp [should_use_win_x86, should_use_win_x86_ui, hx, he]
  | cons b t2 =>
  cases t2 with
  | nil =>
    have hx : extract_base_version v = v := by
      simp [extract_base_version, he]
    simp [should_use_win_x86, should_use_win_x86_ui, hx, he]
  | cons c t3 =>
    have hna : '.' ∉ a := mem_splitDot_no_dot v a (by rw [he]; simp)
    have hnb : '.' ∉ b := mem_splitDot_no_dot v b (by rw [he]; simp)
    have hnc : '.' ∉ c := mem_splitDot_no_dot v c (by rw [he]; simp)
    have hbase : splitDot (a ++ '.' :: (b ++ '.' :: c)) = [a, b, c] := by
      rw [splitDot_append_dot a _ hna, splitDot_append_dot b c hnb,
        splitDot_no_dot c hnc]
    have hx : extract_base_version v = a ++ '.' :: b ++ '.' :: c := by
      simp [extract_base_version, he]
    rcases hpa : parseU32 a with _ | na <;>
      rcases hpb : parseU32 b with _ | nb <;>
        rcases hpc : parseU32 c with _ | nc <;>
          simp [should_use_win_x86, should_use_win_x86_ui, hx, hbase, he,
            hpa, hpb, hpc]

/-- C4: for a version whose first three dot-separated components parse as
`u32` integers, the Windows-x86 policy holds exactly when the triple is
lexicographically at most `(1, 2, 53)`; otherwise the policy fails open.
`"1.2.53.900.gabcdef01"` is accepted, `"1.2.54.0.gabcdef01"` rejected,
`"not-a-version"` accepted; the CLI and UI implementations agree. -/
theorem claim_C4_policy_cutoff :
    (∀ v x y z, firstThreeNums v = some (x, y, z) →
      (should_use_win_x86 v = true ↔ lexLe x y z 1 2 53 = true)) ∧
    (∀ v, firstThreeNums v = none → should_use_win_x86 v = true) ∧
    should_use_win_x86 ("1.2.53.900.gabcdef01".data) = true ∧
    should_use_win_x86 ("1.2.54.0.gabcdef01".data) = false ∧
    should_use_win_x86 ("not-a-version".data) = true ∧
    (∀ v, should_use_win_x86 v = should_use_win_x86_ui v) := by
  refine ⟨?_, ?_, by decide, by decide, by decide, should_use_eq_ui⟩
  · intro v x y z h
    rw [should_use_eq_ui, ui_eq_first, h]
  · intro v h
    rw [should_use_eq_ui, ui_eq_first, h]

/-- C4 witness: the cutoff theorem applied at a concrete version. -/
theorem claim_C4_witness :
    should_use_win_x86 ("1.2.40.0.gabcdef01".data) = true :=
  (claim_C4_policy_cutoff.1 ("1.2.40.0.gabcdef01".data) 1 2 40 (by decide)).mpr
    (by decide)

/-- Decimal printing of a natural number: Rust `i32::to_string` restricted
to the nonnegative build numbers the CLI produces (`parse_range` and the
adaptive search only yield nonnegative bounds). -/
def natDecimal (n : Nat) : Str :=
  if n = 0 then ['0']
  else (Nat.digits 10 n).reverse.map (fun d => Char.ofNat (48 + d))

/-- The five deployment targets. The CLI enum `PlatformArch` and the UI
enum `Platform` have identical variants; they are embedded once. -/
inductive PlatformArch where
  | WinX86
  | WinX64
  | WinArm64
  | MacOsIntel
  | MacOsArm64
deriving DecidableEq

/-- Embeds `PlatformArch::path_template` (CLI, main.rs lines 23-31). -/
def path_template : PlatformArch → Str
  | .WinX86 => "win32-x86/spotify_installer-{version}-{number}.exe".data
  | .WinX64 => "win32-x86_64/spotify_installer-{version}-{number}.exe".data
  | .WinArm64 => "win32-arm64/spotify_installer-{version}-{number}.exe".data
  | .MacOsIntel => "osx-x86_64/spotify-autoupdate-{version}-{number}.tbz".data
  | .MacOsArm64 => "osx-arm64/spotify-autoupdate-{version}-{number}.tbz".data

/-- Embeds `PlatformArch::to_string` (CLI, main.rs lines 33-41). -/
def platformName : PlatformArch → Str
  | .WinX86 => "WIN32".data
  | .WinX64 => "WIN64".data
  | .WinArm64 => "WIN-ARM64".data
  | .MacOsIntel => "OSX".data
  | .MacOsArm64 => "OSX-ARM64".data

theorem isPrefixOf_length_le : ∀ (p s : Str), p.isPrefixOf s = true →
    p.length ≤ s.length
  | [], s, _ => by simp
  | c :: p', [], h => by simp [List.isPrefixOf] at h
  | c :: p', d :: s', h => by
    simp only [List.isPrefixOf, Bool.and_eq_true] at h
    have := isPrefixOf_length_le p' s' h.2
    simp only [List.length_cons]
    omega

/-- Embeds Rust `str::replace`: replace every non-overlapping occurrence of
`pat`, scanning left to right; replacement text is not rescanned. -/
def replaceAll (pat repl : Str) (s : Str) : Str :=
  if h : pat ≠ [] ∧ pat.isPrefixOf s = true then
    repl ++ replaceAll pat repl (s.drop pat.length)
  else
    match s with
    | [] => []
    | c :: cs => c :: replaceAll pat repl cs
termination_by s.length
decreasing_by
  · have h1 : pat.length ≤ s.length := isPrefixOf_length_le pat s h.2
    have h3 : 0 < pat.length := List.length_pos.mpr h.1
    simp only [List.length_drop]
    omega
  · simp only [List.length_cons]
    omega

/-- The literal `"{version}"` (written with escaped braces). -/
def patVersion : Str := '\x7b' :: "version\x7d".data

/-- The literal `"{number}"` (written with escaped braces). -/
def patNumber : Str := '\x7b' :: "number\x7d".data

/-- The CLI base URL `UrlGenerator::BASE_URL` (main.rs line 47). -/
def BASE_URL : Str := "https://upgrade.scdn.co/upgrade/client/".data

/-- Embeds `UrlGenerator::generate_url` (CLI, main.rs lines 49-55):
substitute `{version}` and then `{number}` in the platform's path template
and prepend the base URL.  The UI `generate_url` (UI main.rs lines 34-42
and 65-71) builds the same strings by direct formatting. -/
def generate_url (platform : PlatformArch) (version : Str) (number : Nat) :
    Str :=
  BASE_URL ++
    replaceAll patNumber (natDecimal number)
      (replaceAll patVersion version (path_template platform))

theorem replaceAll_nil (pat repl : Str) : replaceAll pat repl [] = [] := by
  rw [replaceAll]
  split
  · rename_i hc
    exfalso
    cases hp : pat with
    | nil => exact hc.1 hp
    | cons c p' =>
      rw [hp] at hc
      simp [List.isPrefixOf] at hc
  · rfl

theorem replaceAll_head (pat repl : Str) (hp : pat ≠ []) (s : Str)
    (h : pat.isPrefixOf s = true) :
    replaceAll pat repl s = repl ++ replaceAll pat repl (s.drop pat.length) := by
  rw [replaceAll]
  simp [hp, h]

theorem replaceAll_cons_ne (pat repl : Str) (c : Char) (cs : Str)
    (h : pat.isPrefixOf (c :: cs) = false) :
    replaceAll pat repl (c :: cs) = c :: replaceAll pat repl cs := by
  rw [replaceAll]
  simp [h]

theorem isPrefixOf_head_ne (p0 : Char) (pt : Str) (c : Char) (cs : Str)
    (h : p0 ≠ c) : (p0 :: pt).isPrefixOf (c :: cs) = false := by
  simp [List.isPrefixOf, h]

theorem isPrefixOf_append_self : ∀ (p b : Str), p.isPrefixOf (p ++ b) = true
  | [], b => by simp
  | c :: p', b => by
    simp only [List.cons_append, List.isPrefixOf, Bool.and_eq_true, beq_self_eq_true,
      true_and]
    exact isPrefixOf_append_self p' b

/-- Replace an occurrence sitting at the front of the string. -/
theorem replaceAll_front (p0 : Char) (pt repl b : Str) :
    replaceAll (p0 :: pt) repl ((p0 :: pt) ++ b) =
      repl ++ replaceAll (p0 :: pt) repl b := by
  rw [replaceAll_head (p0 :: pt) repl (by simp) _ (isPrefixOf_append_self _ b)]
  congr 1
  congr 1
  exact List.drop_left (p0 :: pt) b

/-- Scanning past characters that can never start a match. -/
theorem replaceAll_skip (p0 : Char) (pt repl : Str) (a s : Str)
    (ha : ∀ c ∈ a, c ≠ p0) :
    replaceAll (p0 :: pt) repl (a ++ s) = a ++ replaceAll (p0 :: pt) repl s := by
  induction a with
  | nil => simp
  | cons c a' ih =>
    have hc : c ≠ p0 := ha c (by simp)
    have ha' : ∀ x ∈ a', x ≠ p0 := fun x hx => ha x (List.mem_cons_of_mem c hx)
    rw [List.cons_append,
      replaceAll_cons_ne _ _ _ _ (isPrefixOf_head_ne p0 pt c _ (fun h => hc h.symm)),
      ih ha']
    rfl

/-- `noOccur pat s` checks that no suffix of `s` starts with `pat`. -/
def noOccur (pat : Str) : Str → Bool
  | [] => true
  | c :: cs => !(pat.isPrefixOf (c :: cs)) && noOccur pat cs

theorem replaceAll_noOccur (pat repl : Str) :
    ∀ s, noOccur pat s = true → replaceAll pat repl s = s := by
  intro s
  induction s with
  | nil => intro _; exact replaceAll_nil pat repl
  | cons c cs ih =>
    intro h
    simp only [noOccur, Bool.and_eq_true, Bool.not_eq_true'] at h
    rw [replaceAll_cons_ne pat repl c cs h.1, ih h.2]

theorem isPrefixOf_append_extend : ∀ (p X Y : Str),
    p.isPrefixOf X = true → p.isPrefixOf (X ++ Y) = true
  | [], X, Y, _ => by simp
  | c :: p', [], Y, h => by simp [List.isPrefixOf] at h
  | c :: p', x :: X', Y, h => by
    simp only [List.isPrefixOf, Bool.and_eq_true] at h
    simp only [List.cons_append, List.isPrefixOf, Bool.and_eq_true]
    exact ⟨h.1, isPrefixOf_append_extend p' X' Y h.2⟩

/-- A prefix of `X ++ ch :: Z` that avoids the character `ch` must already
be a prefix of `X`. -/
theorem prefixOf_append_char : ∀ (p X Z : Str) (ch : Char), ch ∉ p →
    p.isPrefixOf (X ++ ch :: Z) = true →
    p.isPrefixOf X = true ∧ p.length ≤ X.length
  | [], X, Z, ch, _, _ => by simp
  | q :: p', [], Z, ch, hch, h => by
    exfalso
    simp only [List.nil_append, List.isPrefixOf, Bool.and_eq_true, beq_iff_eq] at h
    exact hch (by simp [h.1])
  | q :: p', x :: X', Z, ch, hch, h => by
    simp only [List.cons_append, List.isPrefixOf, Bool.and_eq_true] at h
    have hch' : ch ∉ p' := fun hm => hch (List.mem_cons_of_mem q hm)
    have := prefixOf_append_char p' X' Z ch hch' h.2
    simp only [List.isPrefixOf, Bool.and_eq_true, List.length_cons]
    exact ⟨⟨h.1, this.1⟩, by omega⟩

/-- Replacement distributes over a separator character that does not occur
in the pattern: no occurrence can span the separator. -/
theorem replaceAll_split (pat repl : Str) (hne : pat ≠ []) (hdash : '-' ∉ pat) :
    ∀ (N : Nat) (X Z : Str), X.length ≤ N →
      replaceAll pat repl (X ++ '-' :: Z) =
        replaceAll pat repl X ++ replaceAll pat repl ('-' :: Z) := by
  intro N
  induction N with
  | zero =>
    intro X Z hX
    have hx : X = [] := List.eq_nil_of_length_eq_zero (Nat.le_zero.mp hX)
    subst hx
    simp [replaceAll_nil]
  | succ n ih =>
    intro X Z hX
    cases X with
    | nil => simp [replaceAll_nil]
    | cons c X' =>
      by_cases hpre : pat.isPrefixOf (c :: X' ++ '-' :: Z) = true
      · obtain ⟨hpX, hlen⟩ := prefixOf_append_char pat (c :: X') Z '-' hdash hpre
        have hplen : 0 < pat.length := List.length_pos.mpr hne
        rw [replaceAll_head pat repl hne _ hpre, replaceAll_head pat repl hne _ hpX]
        rw [List.drop_append_eq_append_drop, Nat.sub_eq_zero_of_le hlen,
          List.drop_zero]
        have hlen' : ((c :: X').drop pat.length).length ≤ n := by
          simp only [List.length_drop, List.length_cons]
          simp only [List.length_cons] at hX
          omega
        rw [ih _ Z hlen', List.append_assoc]
      · have hpX : pat.isPrefixOf (c :: X') = false := by
          by_contra hc
          rw [Bool.not_eq_false] at hc
          rw [show (c :: X') ++ '-' :: Z = (c :: X') ++ ('-' :: Z) from rfl] at hpre
          exact hpre (isPrefixOf_append_extend pat (c :: X') ('-' :: Z) hc)
        rw [Bool.not_eq_true] at hpre
        have hpre' : pat.isPrefixOf (c :: (X' ++ '-' :: Z)) = false := hpre
        rw [List.cons_append, replaceAll_cons_ne pat repl c (X' ++ '-' :: Z) hpre',
          replaceAll_cons_ne pat repl c X' hpX]
        have hlen' : X'.length ≤ n := by
          simp only [List.length_cons] at hX
          omega
        rw [ih X' Z hlen', List.cons_append]

theorem natDecimal_ne_nil (n : Nat) : natDecimal n ≠ [] := by
  unfold natDecimal
  split
  · simp
  · rename_i h
    intro hc
    have hlen := congrArg List.length hc
    simp only [List.length_map, List.length_reverse, List.length_nil] at hlen
    exact Nat.digits_ne_nil_iff_ne_zero.mpr h (List.eq_nil_of_length_eq_zero hlen)

theorem natDecimal_all_digits (n : Nat) :
    ∀ c ∈ natDecimal n, c.isDigit = true := by
  unfold natDecimal
  split
  · intro c hc
    simp at hc
    subst hc
    decide
  · intro c hc
    simp only [List.mem_map, List.mem_reverse] at hc
    obtain ⟨d, hd, rfl⟩ := hc
    have hd10 : d < 10 := Nat.digits_lt_base (by norm_num) hd
    interval_cases d <;> decide

theorem digitVal_char (d : Nat) (hd : d < 10) :
    digitVal (Char.ofNat (48 + d)) = d := by
  interval_cases d <;> decide

theorem foldl_base10 (l : List Nat) (hl : ∀ d ∈ l, d < 10) (acc : Nat) :
    List.foldl (fun a c => 10 * a + digitVal c) acc
        (l.map (fun d => Char.ofNat (48 + d))) =
      List.foldl (fun a d => 10 * a + d) acc l := by
  induction l generalizing acc with
  | nil => rfl
  | cons d l' ih =>
    simp only [List.map_cons, List.foldl_cons]
    rw [digitVal_char d (hl d (by simp)),
      ih (fun x hx => hl x (List.mem_cons_of_mem d hx))]

theorem foldl_rev_ofDigits (l : List Nat) :
    List.foldl (fun a d => 10 * a + d) 0 l.reverse = Nat.ofDigits 10 l := by
  induction l with
  | nil => simp [Nat.ofDigits_nil]
  | cons d l' ih =>
    rw [List.reverse_cons, List.foldl_append]
    simp only [List.foldl_cons, List.foldl_nil]
    rw [ih, Nat.ofDigits_cons]
    ring

theorem digitsToNat_natDecimal (n : Nat) : digitsToNat (natDecimal n) = n := by
  unfold natDecimal digitsToNat
  split
  · rename_i h
    subst h
    decide
  · rw [foldl_base10 _
      (fun d hd => Nat.digits_lt_base (by norm_num) (List.mem_reverse.mp hd)),
      foldl_rev_ofDigits, Nat.ofDigits_digits]

/-- The digit-run / separator part of the regex match: take the maximal
digit run, require it nonempty and preceded by `'-'`. -/
def parseTailDigits (rest : Str) : Option Nat :=
  if rest.takeWhile Char.isDigit = [] then none
  else
    match rest.dropWhile Char.isDigit with
    | '-' :: _ => some (digitsToNat (rest.takeWhile Char.isDigit).reverse)
    | _ => none

/-- Models the aggregator's pattern `-(\d+)\.(exe|tbz)$` (CLI, main.rs
line 334): a match anchored at the end must place its `.` exactly four
characters from the end, so the capture is the maximal digit run before
that dot, preceded by `'-'`.  The function inspects the reversed URL. -/
def parseBuildNumber (url : Str) : Option Nat :=
  match url.reverse with
  | 'e' :: 'x' :: 'e' :: '.' :: rest => parseTailDigits rest
  | 'z' :: 'b' :: 't' :: '.' :: rest => parseTailDigits rest
  | _ => none

theorem takeWhile_append_stop (p : Char → Bool) (A : Str) (c : Char) (B : Str)
    (hA : ∀ a ∈ A, p a = true) (hc : p c = false) :
    (A ++ c :: B).takeWhile p = A ∧ (A ++ c :: B).dropWhile p = c :: B := by
  induction A with
  | nil => simp [List.takeWhile_cons, List.dropWhile_cons, hc]
  | cons a A' ih =>
    have ha : p a = true := hA a (by simp)
    obtain ⟨h1, h2⟩ := ih (fun x hx => hA x (List.mem_cons_of_mem a hx))
    constructor
    · simp [List.cons_append, List.takeWhile_cons, ha, h1]
    · simp [List.cons_append, List.dropWhile_cons, ha, h2]

theorem parseTailDigits_run (n : Nat) (R : Str) :
    parseTailDigits ((natDecimal n).reverse ++ '-' :: R) = some n := by
  obtain ⟨h1, h2⟩ := takeWhile_append_stop Char.isDigit (natDecimal n).reverse
    '-' R (fun a ha => natDecimal_all_digits n a (List.mem_reverse.mp ha))
    (by decide)
  unfold parseTailDigits
  rw [h1, h2]
  have hne : (natDecimal n).reverse ≠ [] := by
    intro hc
    exact natDecimal_ne_nil n (by
      have := congrArg List.reverse hc
      simpa using this)
  simp [hne, List.reverse_reverse, digitsToNat_natDecimal]

theorem parse_gen_exe (S : Str) (n : Nat) :
    parseBuildNumber (S ++ '-' :: (natDecimal n ++ '.' :: ['e', 'x', 'e'])) =
      some n := by
  have hrev : (S ++ '-' :: (natDecimal n ++ '.' :: ['e', 'x', 'e'])).reverse =
      'e' :: 'x' :: 'e' :: '.' :: ((natDecimal n).reverse ++ '-' :: S.reverse) := by
    simp [List.reverse_append, List.reverse_cons, List.append_assoc]
  unfold parseBuildNumber
  rw [hrev]
  exact parseTailDigits_run n S.reverse

theorem parse_gen_tbz (S : Str) (n : Nat) :
    parseBuildNumber (S ++ '-' :: (natDecimal n ++ '.' :: ['t', 'b', 'z'])) =
      some n := by
  have hrev : (S ++ '-' :: (natDecimal n ++ '.' :: ['t', 'b', 'z'])).reverse =
      'z' :: 'b' :: 't' :: '.' :: ((natDecimal n).reverse ++ '-' :: S.reverse) := by
    simp [List.reverse_append, List.reverse_cons, List.append_assoc]
  unfold parseBuildNumber
  rw [hrev]
  exact parseTailDigits_run n S.reverse

/-- The constant part of each path template before `{version}`. -/
def tmplLead : PlatformArch → Str
  | .WinX86 => "win32-x86/spotify_installer-".data
  | .WinX64 => "win32-x86_64/spotify_installer-".data
  | .WinArm64 => "win32-arm64/spotify_installer-".data
  | .MacOsIntel => "osx-x86_64/spotify-autoupdate-".data
  | .MacOsArm64 => "osx-arm64/spotify-autoupdate-".data

/-- The file extension of each path template. -/
def extOf : PlatformArch → Str
  | .WinX86 => ['e', 'x', 'e']
  | .WinX64 => ['e', 'x', 'e']
  | .WinArm64 => ['e', 'x', 'e']
  | .MacOsIntel => ['t', 'b', 'z']
  | .MacOsArm64 => ['t', 'b', 'z']

theorem path_template_decomp (p : PlatformArch) :
    path_template p =
      tmplLead p ++ (patVersion ++ ('-' :: (patNumber ++ '.' :: extOf p))) := by
  cases p <;> decide

theorem tmplLead_no_brace (p : PlatformArch) :
    ∀ c ∈ tmplLead p, c ≠ '\x7b' := by
  cases p <;> decide

theorem replaceAll_patVersion_skip (repl a s : Str)
    (ha : ∀ c ∈ a, c ≠ '\x7b') :
    replaceAll patVersion repl (a ++ s) = a ++ replaceAll patVersion repl s :=
  replaceAll_skip '\x7b' ("version\x7d".data) repl a s ha

theorem replaceAll_patVersion_front (repl b : Str) :
    replaceAll patVersion repl (patVersion ++ b) =
      repl ++ replaceAll patVersion repl b :=
  replaceAll_front '\x7b' ("version\x7d".data) repl b

theorem replaceAll_patVersion_keep (repl s : Str)
    (hno : noOccur patVersion s = true) :
    replaceAll patVersion repl s = s :=
  replaceAll_noOccur patVersion repl s hno

theorem replaceAll_patNumber_front (repl b : Str) :
    replaceAll patNumber repl (patNumber ++ b) =
      repl ++ replaceAll patNumber repl b :=
  replaceAll_front '\x7b' ("number\x7d".data) repl b

theorem replaceAll_patNumber_keep (repl s : Str)
    (hno : noOccur patNumber s = true) :
    replaceAll patNumber repl s = s :=
  replaceAll_noOccur patNumber repl s hno

theorem replaceAll_patNumber_dash (repl s : Str) :
    replaceAll patNumber repl ('-' :: s) = '-' :: replaceAll patNumber repl s :=
  replaceAll_cons_ne patNumber repl '-' s
    (isPrefixOf_head_ne '\x7b' ("number\x7d".data) '-' s (by decide))

theorem replaceAll_patNumber_split (repl X Z : Str) :
    replaceAll patNumber repl (X ++ '-' :: Z) =
      replaceAll patNumber repl X ++ replaceAll patNumber repl ('-' :: Z) :=
  replaceAll_split patNumber repl (by decide) (by decide) X.length X Z le_rfl

theorem noOccur_version_tail (p : PlatformArch) :
    noOccur patVersion ('-' :: (patNumber ++ '.' :: extOf p)) = true := by
  cases p <;> decide

theorem noOccur_number_tail (p : PlatformArch) :
    noOccur patNumber ('.' :: extOf p) = true := by
  cases p <;> decide

/-- The fully substituted URL decomposes into an arbitrary left part
followed by `-<decimal number>.<ext>`. -/
theorem generate_url_shape (p : PlatformArch) (v : Str) (n : Nat) :
    generate_url p v n =
      (BASE_URL ++ replaceAll patNumber (natDecimal n) (tmplLead p ++ v)) ++
        '-' :: (natDecimal n ++ '.' :: extOf p) := by
  unfold generate_url
  rw [path_template_decomp p,
    replaceAll_patVersion_skip v (tmplLead p) _ (tmplLead_no_brace p),
    replaceAll_patVersion_front,
    replaceAll_patVersion_keep v _ (noOccur_version_tail p)]
  rw [show tmplLead p ++ (v ++ '-' :: (patNumber ++ '.' :: extOf p)) =
      (tmplLead p ++ v) ++ '-' :: (patNumber ++ '.' :: extOf p) from
    (List.append_assoc _ _ _).symm]
  rw [replaceAll_patNumber_split, replaceAll_patNumber_dash,
    replaceAll_patNumber_front,
    replaceAll_patNumber_keep _ _ (noOccur_number_tail p)]
  simp [List.append_assoc]

/-- C2: parsing the trailing `-<number>.<ext>` of a generated URL with the
aggregator's pattern recovers exactly the original build number, for every
platform-architecture, version string and build number. -/
theorem claim_C2_round_trip (platform : PlatformArch) (version : Str)
    (number : Nat) :
    parseBuildNumber (generate_url platform version number) = some number := by
  rw [generate_url_shape]
  cases platform
  case WinX86 => exact parse_gen_exe _ number
  case WinX64 => exact parse_gen_exe _ number
  case WinArm64 => exact parse_gen_exe _ number
  case MacOsIntel => exact parse_gen_tbz _ number
  case MacOsArm64 => exact parse_gen_tbz _ number

/-- Insertion-ordered association map: the embedding of the Rust
`HashMap<String, _>` values built by the aggregator.  Iteration order is
irrelevant to every claim; lookup, size (`List.length`, keys are kept
distinct by `mapInsert`) and insert-or-update are the operations the source
uses. -/
abbrev SMap (α : Type) : Type := List (Str × α)

/-- `HashMap::get` / `contains_key` lookup. -/
def mapFind? {α : Type} (k : Str) : SMap α → Option α
  | [] => none
  | (k', v) :: rest => if k' = k then some v else mapFind? k rest

/-- `HashMap::insert`: replace the value if the key is present, otherwise
append a new entry. -/
def mapInsert {α : Type} (k : Str) (v : α) : SMap α → SMap α
  | [] => [(k, v)]
  | (k', v') :: rest =>
    if k' = k then (k, v) :: rest else (k', v') :: mapInsert k v rest

theorem mapInsert_ne_nil {α : Type} (k : Str) (v : α) (m : SMap α) :
    mapInsert k v m ≠ [] := by
  cases m with
  | nil => simp [mapInsert]
  | cons e rest =>
    rcases e with ⟨k', v'⟩
    by_cases h : k' = k <;> simp [mapInsert, h]

theorem mapFind?_insert_self {α : Type} (k : Str) (v : α) (m : SMap α) :
    mapFind? k (mapInsert k v m) = some v := by
  induction m with
  | nil => simp [mapInsert, mapFind?]
  | cons e rest ih =>
    rcases e with ⟨k', v'⟩
    by_cases h : k' = k
    · simp [mapInsert, mapFind?, h]
    · simp [mapInsert, mapFind?, h, ih]

theorem mapFind?_insert_ne {α : Type} (k k2 : Str) (v : α) (m : SMap α)
    (h : k2 ≠ k) : mapFind? k2 (mapInsert k v m) = mapFind? k2 m := by
  have hkk : ¬ k = k2 := fun hc => h hc.symm
  induction m with
  | nil => simp [mapInsert, mapFind?, hkk]
  | cons e rest ih =>
    rcases e with ⟨k', v'⟩
    by_cases hk : k' = k
    · subst hk
      simp [mapInsert, mapFind?, hkk]
    · simp only [mapInsert, hk, if_false]
      by_cases hk2 : k' = k2
      · simp [mapFind?, hk2]
      · simp [mapFind?, hk2, ih]

/-- One step of the aggregation fold of `get_latest_urls` (CLI, main.rs
lines 336-349): parse the build number out of the URL with the fixed
pattern; the first hit for a platform is kept, a later hit replaces it only
when its number is strictly greater (`version_number > entry.1`). -/
def aggStep (m : SMap (Str × Nat)) (x : Str × PlatformArch) :
    SMap (Str × Nat) :=
  match parseBuildNumber x.1 with
  | none => m
  | some n =>
    match mapFind? (platformName x.2) m with
    | none => mapInsert (platformName x.2) (x.1, n) m
    | some e =>
      if e.2 < n then mapInsert (platformName x.2) (x.1, n) m else m

/-- Rust `Vec::join(", ")`. -/
def joinComma : List Str → Str
  | [] => []
  | [v] => v
  | v :: rest => v ++ ',' :: ' ' :: joinComma rest

/-- The key `"version"`. -/
def vKey : Str := "version".data

/-- The key `"source"`. -/
def sKey : Str := "source".data

/-- The key and value `"unknown"`. -/
def uKey : Str := "unknown".data

/-- The aggregated map of `get_latest_urls` after dropping the numbers and
inserting the version and source metadata (CLI, main.rs lines 351-361),
before the final emptiness check. -/
def latest_with_meta (found : List (Str × PlatformArch)) (versions : List Str)
    (source : Str) : SMap Str :=
  mapInsert sKey source
    (if versions = [] then
      (found.foldl aggStep []).map (fun kv => (kv.1, kv.2.1))
    else
      mapInsert vKey (joinComma versions)
        ((found.foldl aggStep []).map (fun kv => (kv.1, kv.2.1))))

/-- Embeds `get_latest_urls` (CLI, main.rs lines 328-374).  The Rust
`parse::<u32>().unwrap()` on the captured digits panics above `u32::MAX`
and the regex `\d` is Unicode-aware; the `foundOk` predicate below marks
the ASCII, in-range inputs on which this total embedding and the Rust code
coincide (every URL the program itself builds satisfies it). -/
def get_latest_urls (found : List (Str × PlatformArch)) (versions : List Str)
    (source : Str) : SMap Str :=
  if latest_with_meta found versions source = [] then
    mapInsert sKey source
      (if versions = [] then mapInsert uKey uKey []
       else mapInsert vKey (joinComma versions) (mapInsert uKey uKey []))
  else latest_with_meta found versions source

/-- The inputs on which the Rust aggregator is defined: ASCII URLs whose
embedded build number (when present) fits in `u32`. -/
def urlOk (u : Str) : Bool :=
  u.all (fun c => decide (c.toNat < 128)) &&
    (match parseBuildNumber u with
     | some n => decide (n < 4294967296)
     | none => true)

/-- All URLs of a `Found` collection are `urlOk`. -/
def foundOk (found : List (Str × PlatformArch)) : Bool :=
  found.all (fun x => urlOk x.1)

/-- The entries of one platform, in arrival order, with their parsed build
numbers. -/
def platformEntries (found : List (Str × PlatformArch)) (p : PlatformArch) :
    List (Str × Nat) :=
  found.filterMap (fun x =>
    match parseBuildNumber x.1 with
    | some n => if x.2 = p then some (x.1, n) else none
    | none => none)

/-- The per-platform best-so-far step: keep the held entry unless a strictly
greater number arrives. -/
def bestStep (acc : Option (Str × Nat)) (e : Str × Nat) : Option (Str × Nat) :=
  match acc with
  | none => some e
  | some e0 => if e0.2 < e.2 then some e else acc

theorem platformName_inj (p q : PlatformArch)
    (h : platformName p = platformName q) : p = q := by
  cases p <;> cases q <;> first | rfl | exact absurd h (by decide)

theorem platformEntries_cons (found : List (Str × PlatformArch))
    (p : PlatformArch) (u : Str) (q : PlatformArch) :
    platformEntries ((u, q) :: found) p =
      (match parseBuildNumber u with
       | some n =>
         if q = p then (u, n) :: platformEntries found p
         else platformEntries found p
       | none => platformEntries found p) := by
  cases hp : parseBuildNumber u with
  | none => simp [platformEntries, List.filterMap_cons, hp]
  | some n =>
    by_cases hq : q = p <;>
      simp [platformEntries, List.filterMap_cons, hp, hq]

theorem aggFold_find (p : PlatformArch) (found : List (Str × PlatformArch)) :
    ∀ (m : SMap (Str × Nat)),
      mapFind? (platformName p) (found.foldl aggStep m) =
        (platformEntries found p).foldl bestStep
          (mapFind? (platformName p) m) := by
  induction found with
  | nil => intro m; rfl
  | cons x rest ih =>
    intro m
    rcases x with ⟨u, q⟩
    rw [List.foldl_cons]
    cases hp : parseBuildNumber u with
    | none =>
      have hent : platformEntries ((u, q) :: rest) p =
          platformEntries rest p := by
        rw [platformEntries_cons, hp]
      have hstep : aggStep m (u, q) = m := by simp [aggStep, hp]
      rw [hent, hstep, ih m]
    | some n =>
      by_cases hq : q = p
      · subst hq
        have hent : platformEntries ((u, q) :: rest) q =
            (u, n) :: platformEntries rest q := by
          rw [platformEntries_cons, hp]
          simp
        cases hf : mapFind? (platformName q) m with
        | none =>
          have hstep : aggStep m (u, q) =
              mapInsert (platformName q) (u, n) m := by
            simp [aggStep, hp, hf]
          rw [hent, hstep, ih, mapFind?_insert_self, List.foldl_cons]
          rfl
        | some e =>
          by_cases hlt : e.2 < n
          · have hstep : aggStep m (u, q) =
                mapInsert (platformName q) (u, n) m := by
              simp [aggStep, hp, hf, hlt]
            rw [hent, hstep, ih, mapFind?_insert_self, List.foldl_cons]
            have hb : bestStep (some e) (u, n) = some (u, n) := by
              simp [bestStep, hlt]
            rw [hb]
          · have hstep : aggStep m (u, q) = m := by
              simp [aggStep, hp, hf, hlt]
            rw [hent, hstep, ih, List.foldl_cons]
            have hb : bestStep (some e) (u, n) = some e := by
              simp [bestStep, hlt]
            rw [hb, hf]
      · have hent : platformEntries ((u, q) :: rest) p =
            platformEntries rest p := by
          rw [platformEntries_cons, hp]
          simp [hq]
        have hne : platformName p ≠ platformName q :=
          fun hc => hq (platformName_inj p q hc).symm
        have hfind : mapFind? (platformName p) (aggStep m (u, q)) =
            mapFind? (platformName p) m := by
          cases hf : mapFind? (platformName q) m with
          | none =>
            have hstep : aggStep m (u, q) =
                mapInsert (platformName q) (u, n) m := by
              simp [aggStep, hp, hf]
            rw [hstep]
            exact mapFind?_insert_ne _ _ _ m hne
          | some e =>
            by_cases hlt : e.2 < n
            · have hstep : aggStep m (u, q) =
                  mapInsert (platformName q) (u, n) m := by
                simp [aggStep, hp, hf, hlt]
              rw [hstep]
              exact mapFind?_insert_ne _ _ _ m hne
            · have hstep : aggStep m (u, q) = m := by
                simp [aggStep, hp, hf, hlt]
              rw [hstep]
        rw [hent, ih, hfind]

theorem bestStep_acc_some (es : List (Str × Nat)) :
    ∀ (a : Str × Nat), ∃ r, es.foldl bestStep (some a) = some r := by
  induction es with
  | nil => intro a; exact ⟨a, rfl⟩
  | cons x rest ih =>
    intro a
    rw [List.foldl_cons]
    by_cases hlt : a.2 < x.2
    · rw [show bestStep (some a) x = some x from by simp [bestStep, hlt]]
      exact ih x
    · rw [show bestStep (some a) x = some a from by simp [bestStep, hlt]]
      exact ih a

theorem best_ne_nil (es : List (Str × Nat)) (hne : es ≠ []) :
    ∃ r, es.foldl bestStep none = some r := by
  cases es with
  | nil => exact absurd rfl hne
  | cons x rest =>
    rw [List.foldl_cons]
    exact bestStep_acc_some rest x

theorem bestStep_some (es : List (Str × Nat)) :
    ∀ (a r : Str × Nat), es.foldl bestStep (some a) = some r →
      a.2 ≤ r.2 ∧ (∀ e ∈ es, e.2 ≤ r.2) ∧
        (r = a ∨ (a.2 < r.2 ∧
          ∃ pre post, es = pre ++ r :: post ∧ ∀ e ∈ pre, e.2 < r.2)) := by
  induction es with
  | nil =>
    intro a r h
    simp only [List.foldl_nil, Option.some.injEq] at h
    subst h
    exact ⟨le_refl _, by simp, Or.inl rfl⟩
  | cons x rest ih =>
    intro a r h
    rw [List.foldl_cons] at h
    by_cases hlt : a.2 < x.2
    · rw [show bestStep (some a) x = some x from by simp [bestStep, hlt]] at h
      obtain ⟨h1, h2, h3⟩ := ih x r h
      refine ⟨by omega, ?_, ?_⟩
      · intro e he
        cases List.mem_cons.mp he with
        | inl h4 => subst h4; exact h1
        | inr h4 => exact h2 e h4
      · cases h3 with
        | inl h4 =>
          subst h4
          exact Or.inr ⟨hlt, [], rest, rfl, by simp⟩
        | inr h4 =>
          obtain ⟨hx2, pre, post, heq, hpre⟩ := h4
          refine Or.inr ⟨by omega, x :: pre, post, by rw [heq, List.cons_append], ?_⟩
          intro e he
          cases List.mem_cons.mp he with
          | inl h5 => subst h5; exact hx2
          | inr h5 => exact hpre e h5
    · rw [show bestStep (some a) x = some a from by simp [bestStep, hlt]] at h
      obtain ⟨h1, h2, h3⟩ := ih a r h
      refine ⟨h1, ?_, ?_⟩
      · intro e he
        cases List.mem_cons.mp he with
        | inl h4 => subst h4; omega
        | inr h4 => exact h2 e h4
      · cases h3 with
        | inl h4 => exact Or.inl h4
        | inr h4 =>
          obtain ⟨ha2, pre, post, heq, hpre⟩ := h4
          refine Or.inr ⟨ha2, x :: pre, post, by rw [heq, List.cons_append], ?_⟩
          intro e he
          cases List.mem_cons.mp he with
          | inl h5 => subst h5; omega
          | inr h5 => exact hpre e h5

/-- The fold result is the first entry holding the maximal number. -/
theorem best_char (es : List (Str × Nat)) (r : Str × Nat)
    (h : es.foldl bestStep none = some r) :
    (∀ e ∈ es, e.2 ≤ r.2) ∧
      ∃ pre post, es = pre ++ r :: post ∧ ∀ e ∈ pre, e.2 < r.2 := by
  cases es with
  | nil => simp at h
  | cons x rest =>
    rw [List.foldl_cons, show bestStep none x = some x from rfl] at h
    obtain ⟨h1, h2, h3⟩ := bestStep_some rest x r h
    constructor
    · intro e he
      cases List.mem_cons.mp he with
      | inl h4 => subst h4; exact h1
      | inr h4 => exact h2 e h4
    · cases h3 with
      | inl h4 =>
        subst h4
        exact ⟨[], rest, rfl, by simp⟩
      | inr h4 =>
        obtain ⟨hx2, pre, post, heq, hpre⟩ := h4
        refine ⟨x :: pre, post, by rw [heq, List.cons_append], ?_⟩
        intro e he
        cases List.mem_cons.mp he with
        | inl h5 => subst h5; exact hx2
        | inr h5 => exact hpre e h5

theorem mapFind?_map_fst (k : Str) (m : SMap (Str × Nat)) :
    mapFind? k (m.map (fun kv => (kv.1, kv.2.1))) = (mapFind? k m).map Prod.fst := by
  induction m with
  | nil => rfl
  | cons e rest ih =>
    rcases e with ⟨k', v⟩
    by_cases h : k' = k <;> simp [mapFind?, h, ih]

/-- The platform lookup in the final aggregated map is the best-so-far fold
over that platform's entries. -/
theorem find_latest (found : List (Str × PlatformArch)) (versions : List Str)
    (source : Str) (p : PlatformArch) :
    mapFind? (platformName p) (get_latest_urls found versions source) =
      ((platformEntries found p).foldl bestStep none).map Prod.fst := by
  have hpv : platformName p ≠ vKey := by cases p <;> decide
  have hps : platformName p ≠ sKey := by cases p <;> decide
  have hnn : latest_with_meta found versions source ≠ [] :=
    mapInsert_ne_nil _ _ _
  unfold get_latest_urls
  rw [if_neg hnn]
  unfold latest_with_meta
  rw [mapFind?_insert_ne _ _ _ _ hps]
  by_cases hv : versions = []
  · rw [if_pos hv, mapFind?_map_fst, aggFold_find]
    rfl
  · rw [if_neg hv, mapFind?_insert_ne _ _ _ _ hpv, mapFind?_map_fst,
      aggFold_find]
    rfl

theorem snd_nodup_inj (es : List (Str × Nat))
    (hnd : (es.map Prod.snd).Nodup) :
    ∀ e1 ∈ es, ∀ e2 ∈ es, e1.2 = e2.2 → e1 = e2 := by
  induction es with
  | nil =>
    intro e1 h1
    simp at h1
  | cons x rest ih =>
    simp only [List.map_cons, List.nodup_cons] at hnd
    intro e1 h1 e2 h2 heq
    cases List.mem_cons.mp h1 with
    | inl h1' =>
      cases List.mem_cons.mp h2 with
      | inl h2' => rw [h1', h2']
      | inr h2' =>
        exfalso
        subst h1'
        exact hnd.1 (heq ▸ List.mem_map_of_mem Prod.snd h2')
    | inr h1' =>
      cases List.mem_cons.mp h2 with
      | inl h2' =>
        exfalso
        subst h2'
        exact hnd.1 (heq ▸ List.mem_map_of_mem Prod.snd h1')
      | inr h2' => exact ih hnd.2 e1 h1' e2 h2' heq

/-- C1: for every collection of `Found(url, platform)` outcomes (on which
the Rust aggregator is defined, `foundOk`), the aggregator retains per
platform exactly the URL whose embedded build number is maximal among that
platform's entries; a held entry is replaced only by a strictly greater
number (so on ties the first-seen URL wins: every entry before the retained
one is strictly smaller, every entry at all is at most it); and when the
build numbers of a platform are pairwise distinct the retained URL is
independent of arrival order. -/
theorem claim_C1_aggregation (found : List (Str × PlatformArch))
    (versions : List Str) (source : Str) (p : PlatformArch)
    (hok : foundOk found = true) :
    (platformEntries found p = [] →
      mapFind? (platformName p) (get_latest_urls found versions source) =
        none) ∧
    (platformEntries found p ≠ [] →
      ∃ u n pre post,
        mapFind? (platformName p) (get_latest_urls found versions source) =
          some u ∧
        platformEntries found p = pre ++ (u, n) :: post ∧
        (∀ e ∈ platformEntries found p, e.2 ≤ n) ∧
        (∀ e ∈ pre, e.2 < n)) ∧
    (∀ found', found.Perm found' →
      ((platformEntries found p).map Prod.snd).Nodup →
      mapFind? (platformName p) (get_latest_urls found versions source) =
        mapFind? (platformName p) (get_latest_urls found' versions source)) := by
  refine ⟨?_, ?_, ?_⟩
  · intro he
    rw [find_latest, he]
    rfl
  · intro hne
    obtain ⟨⟨u, n⟩, hr⟩ := best_ne_nil _ hne
    obtain ⟨hall, pre, post, heq, hpre⟩ := best_char _ _ hr
    refine ⟨u, n, pre, post, ?_, heq, hall, hpre⟩
    rw [find_latest, hr]
    rfl
  · intro found' hperm hnd
    rw [find_latest, find_latest]
    have hperm_e : (platformEntries found p).Perm (platformEntries found' p) :=
      hperm.filterMap _
    by_cases he : platformEntries found p = []
    · have he' : platformEntries found' p = [] := by
        rw [he] at hperm_e
        exact (hperm_e.symm).eq_nil
      rw [he, he']
    · have he' : platformEntries found' p ≠ [] := by
        intro hc
        rw [hc] at hperm_e
        exact he hperm_e.eq_nil
      obtain ⟨⟨u, n⟩, hr⟩ := best_ne_nil _ he
      obtain ⟨⟨u', n'⟩, hr'⟩ := best_ne_nil _ he'
      obtain ⟨hall, pre, post, heq, _⟩ := best_char _ _ hr
      obtain ⟨hall', pre', post', heq', _⟩ := best_char _ _ hr'
      have hmem : (u, n) ∈ platformEntries found p := by
        rw [heq]
        simp
      have hmem' : (u', n') ∈ platformEntries found' p := by
        rw [heq']
        simp
      have hmemX : (u', n') ∈ platformEntries found p := hperm_e.symm.subset hmem'
      have hmemY : (u, n) ∈ platformEntries found' p := hperm_e.subset hmem
      have hnn : n = n' := le_antisymm (hall' _ hmemY) (hall _ hmemX)
      have heqp := snd_nodup_inj _ hnd (u, n) hmem (u', n') hmemX (by simp [hnn])
      rw [hr, hr']
      simp only [Prod.mk.injEq] at heqp
      simp [heqp.1]

/-- C1 witness: build 100 then build 50 for the same platform retains the
build-100 URL, and so does the reverse arrival order. -/
theorem claim_C1_witness :
    ∃ u n pre post,
      mapFind? (platformName PlatformArch.WinX64)
          (get_latest_urls
            [("https://upgrade.scdn.co/upgrade/client/win32-x86_64/spotify_installer-1.2.3.4.gabcdef12-100.exe".data,
              PlatformArch.WinX64),
             ("https://upgrade.scdn.co/upgrade/client/win32-x86_64/spotify_installer-1.2.3.4.gabcdef12-50.exe".data,
              PlatformArch.WinX64)]
            ["1.2.3.4.gabcdef12".data] ("test".data)) = some u ∧
      platformEntries
          [("https://upgrade.scdn.co/upgrade/client/win32-x86_64/spotify_installer-1.2.3.4.gabcdef12-100.exe".data,
            PlatformArch.WinX64),
           ("https://upgrade.scdn.co/upgrade/client/win32-x86_64/spotify_installer-1.2.3.4.gabcdef12-50.exe".data,
            PlatformArch.WinX64)] PlatformArch.WinX64 =
        pre ++ (u, n) :: post ∧
      (∀ e ∈ platformEntries
          [("https://upgrade.scdn.co/upgrade/client/win32-x86_64/spotify_installer-1.2.3.4.gabcdef12-100.exe".data,
            PlatformArch.WinX64),
           ("https://upgrade.scdn.co/upgrade/client/win32-x86_64/spotify_installer-1.2.3.4.gabcdef12-50.exe".data,
            PlatformArch.WinX64)] PlatformArch.WinX64, e.2 ≤ n) ∧
      (∀ e ∈ pre, e.2 < n) :=
  (claim_C1_aggregation _ _ _ PlatformArch.WinX64 (by decide)).2.1 (by decide)

/-- C3 counterexample: a run with zero `Found` outcomes does NOT contain the
designated `"unknown"` placeholder — the emptiness branch of
`get_latest_urls` is dead, because `"source"` (and `"version"`) were
inserted before the check. -/
theorem claim_C3_counterexample :
    mapFind? uKey
        (get_latest_urls [] ["1.2.3.4.gabcdef12".data] ("github".data)) =
      none ∧
    get_latest_urls [] ["1.2.3.4.gabcdef12".data] ("github".data) ≠ [] := by
  constructor
  · decide
  · decide

/-- C3 (amended): a run with zero `Found` outcomes still yields a non-empty
aggregated map — it always contains the `"source"` entry, and the
`"version"` entry whenever the versions list is nonempty — but the map
never contains the designated `"unknown"` placeholder; the placeholder
branch is dead code. -/
theorem claim_C3_empty_run (versions : List Str) (source : Str) :
    get_latest_urls [] versions source ≠ [] ∧
    mapFind? sKey (get_latest_urls [] versions source) = some source ∧
    (versions ≠ [] →
      mapFind? vKey (get_latest_urls [] versions source) =
        some (joinComma versions)) ∧
    mapFind? uKey (get_latest_urls [] versions source) = none := by
  have huv : uKey ≠ vKey := by decide
  have hus : uKey ≠ sKey := by decide
  have hvs : vKey ≠ sKey := by decide
  have hnn : latest_with_meta [] versions source ≠ [] := mapInsert_ne_nil _ _ _
  have hg : get_latest_urls [] versions source =
      latest_with_meta [] versions source := by
    unfold get_latest_urls
    rw [if_neg hnn]
  refine ⟨by rw [hg]; exact hnn, ?_, ?_, ?_⟩
  · rw [hg]
    unfold latest_with_meta
    exact mapFind?_insert_self _ _ _
  · intro hv
    rw [hg]
    unfold latest_with_meta
    rw [if_neg hv, mapFind?_insert_ne _ _ _ _ hvs, mapFind?_insert_self]
  · rw [hg]
    unfold latest_with_meta
    rw [mapFind?_insert_ne _ _ _ _ hus]
    by_cases hv : versions = []
    · rw [if_pos hv]
      rfl
    · rw [if_neg hv, mapFind?_insert_ne _ _ _ _ huv]
      rfl

/-- C3 witness: the amended empty-run theorem at a concrete input. -/
theorem claim_C3_witness :
    mapFind? vKey
        (get_latest_urls [] ["1.2.3.4.gabcdef12".data] ("gh".data)) =
      some (joinComma ["1.2.3.4.gabcdef12".data]) :=
  (claim_C3_empty_run ["1.2.3.4.gabcdef12".data] ("gh".data)).2.2.1 (by decide)

/-- C10: for every input (the empty `Found` list included) the aggregated
map contains the `"source"` key, contains the `"version"` key whenever the
versions list is nonempty, is never empty, and the branch inserting the
`"unknown"` placeholder is unreachable: the map checked for emptiness is
never empty. -/
theorem claim_C10_source_always (found : List (Str × PlatformArch))
    (versions : List Str) (source : Str) (hok : foundOk found = true) :
    mapFind? sKey (get_latest_urls found versions source) = some source ∧
    (versions ≠ [] →
      mapFind? vKey (get_latest_urls found versions source) =
        some (joinComma versions)) ∧
    get_latest_urls found versions source ≠ [] ∧
    latest_with_meta found versions source ≠ [] := by
  have hvs : vKey ≠ sKey := by decide
  have hnn : latest_with_meta found versions source ≠ [] :=
    mapInsert_ne_nil _ _ _
  have hg : get_latest_urls found versions source =
      latest_with_meta found versions source := by
    unfold get_latest_urls
    rw [if_neg hnn]
  refine ⟨?_, ?_, by rw [hg]; exact hnn, hnn⟩
  · rw [hg]
    unfold latest_with_meta
    exact mapFind?_insert_self _ _ _
  · intro hv
    rw [hg]
    unfold latest_with_meta
    rw [if_neg hv, mapFind?_insert_ne _ _ _ _ hvs, mapFind?_insert_self]

/-- C10 witness: the metadata keys at a concrete nonempty input. -/
theorem claim_C10_witness :
    mapFind? sKey
        (get_latest_urls
          [("https://upgrade.scdn.co/upgrade/client/win32-x86_64/spotify_installer-1.2.3.4.gabcdef12-11.exe".data,
            PlatformArch.WinX64)]
          ["1.2.3.4.gabcdef12".data] ("versions.json".data)) =
      some ("versions.json".data) :=
  (claim_C10_source_always
    [("https://upgrade.scdn.co/upgrade/client/win32-x86_64/spotify_installer-1.2.3.4.gabcdef12-11.exe".data,
      PlatformArch.WinX64)]
    ["1.2.3.4.gabcdef12".data] ("versions.json".data) (by decide)).1

/-- The inclusive run of build numbers `start..=end` the CLI scheduler
iterates over (empty when `end < start`, as in Rust). -/
def searchNumbers (start endN : Nat) : List Nat :=
  List.range' start (endN + 1 - start)

/-- Embeds the CLI `search_installers` (main.rs lines 91-128) with the
network call abstracted into a probe oracle: the `Found` results collected
for one platform over the inclusive range, linearised in build-number order
(concurrent completion order is irrelevant to the aggregation that consumes
them). -/
def search_installers (probe : PlatformArch → Nat → Bool) (version : Str)
    (start endN : Nat) (platform : PlatformArch) :
    List (Str × PlatformArch) :=
  (searchNumbers start endN).filterMap (fun n =>
    if probe platform n then some (generate_url platform version n, platform)
    else none)

/-- Embeds the additional-search loop of the CLI adaptive mode ("Лесенка",
main.rs lines 253-289): at most `k` further rounds; stop when the
aggregated map has at least `target_len + 2` entries; otherwise set
`start_number := before_enter + 1`, advance `before_enter` by the increment
1000, and re-scan only the platforms missing from the aggregated map. -/
def adaptiveRounds (probe : PlatformArch → Nat → Bool) (version source : Str)
    (arches : List PlatformArch) :
    Nat → Nat → List (Str × PlatformArch) → List (Str × PlatformArch)
  | 0, _, acc => acc
  | k + 1, before_enter, acc =>
    if ((arches.filter (fun p =>
          decide (p ≠ PlatformArch.WinX86) || should_use_win_x86 version)).length
        + 2) ≤ (get_latest_urls acc [version] source).length then acc
    else
      adaptiveRounds probe version source arches k (before_enter + 1000)
        (acc ++ (arches.filter (fun p =>
            !(mapFind? (platformName p)
                (get_latest_urls acc [version] source)).isSome)).flatMap
          (fun p =>
            search_installers probe version (before_enter + 1)
              (before_enter + 1000) p))

/-- The adaptive mode of the CLI for one version: a first pass over
`0..=1000` for every applicable platform, then up to 15 additional rounds.
`arches` is the already-pruned applicable platform list. -/
def adaptiveSearch (probe : PlatformArch → Nat → Bool) (version source : Str)
    (arches : List PlatformArch) : List (Str × PlatformArch) :=
  adaptiveRounds probe version source arches 15 1000
    (arches.flatMap (fun p => search_installers probe version 0 1000 p))

/-- The adaptive strategy as the amended specification words it: round `i`
(counting from 0) scans the inclusive window `[1000*(i+1)+1, 1000*(i+2)]` —
the window advanced by the fixed increment 1000 — over only the platforms
still missing from the aggregated result, stopping early once the result
map has reached applicable-platform-count plus 2 entries (the two reserved
slots being the version and source metadata), for at most the given number
of rounds. -/
def adaptiveSpecAux (probe : PlatformArch → Nat → Bool) (version source : Str)
    (arches : List PlatformArch) :
    Nat → Nat → List (Str × PlatformArch) → List (Str × PlatformArch)
  | 0, _, acc => acc
  | k + 1, i, acc =>
    if ((arches.filter (fun p =>
          decide (p ≠ PlatformArch.WinX86) || should_use_win_x86 version)).length
        + 2) ≤ (get_latest_urls acc [version] source).length then acc
    else
      adaptiveSpecAux probe version source arches k (i + 1)
        (acc ++ (arches.filter (fun p =>
            !(mapFind? (platformName p)
                (get_latest_urls acc [version] source)).isSome)).flatMap
          (fun p =>
            search_installers probe version (1000 * (i + 1) + 1)
              (1000 * (i + 2)) p))

/-- The specification-side adaptive policy (amended): first window is the
inclusive `[0, 1000]`, then at most 15 additional rounds as described in
`adaptiveSpecAux`. -/
def adaptiveSpec (probe : PlatformArch → Nat → Bool) (version source : Str)
    (arches : List PlatformArch) : List (Str × PlatformArch) :=
  adaptiveSpecAux probe version source arches 15 0
    (arches.flatMap (fun p => search_installers probe version 0 1000 p))

theorem adaptiveRounds_eq_spec (probe : PlatformArch → Nat → Bool)
    (version source : Str) (arches : List PlatformArch) :
    ∀ (k i : Nat) (acc : List (Str × PlatformArch)),
      adaptiveRounds probe version source arches k (1000 * (i + 1)) acc =
        adaptiveSpecAux probe version source arches k i acc := by
  intro k
  induction k with
  | zero => intro i acc; rfl
  | succ k' ih =>
    intro i acc
    rw [adaptiveRounds, adaptiveSpecAux]
    split
    · rfl
    · have h1 : 1000 * (i + 1) + 1000 = 1000 * (i + 2) := by ring
      have h2 : 1000 * (i + 2) = 1000 * ((i + 1) + 1) := by ring
      rw [h1, h2]
      exact ih (i + 1) _

/-- C5 counterexample: the first scheduler invocation of the adaptive mode
(`search_installers probe version 0 1000 p`) iterates
`searchNumbers 0 1000`, the inclusive `0..=1000`; build number 1000 is
probed in the first pass, so the first window is not the half-open
`[0, 1000)` (i.e. `List.range 1000`) that the claim states. -/
theorem claim_C5_counterexample :
    searchNumbers 0 1000 ≠ List.range 1000 ∧
      1000 ∈ searchNumbers 0 1000 := by
  constructor
  · intro hc
    have hlen := congrArg List.length hc
    simp [searchNumbers, List.length_range'] at hlen
  · simp [searchNumbers, List.mem_range'_1]

/-- C5 (amended): the adaptive mode scans the inclusive window `[0, 1000]`
first, then for at most 15 additional rounds checks whether the aggregated
map has reached applicable-platform-count plus 2 entries (version and
source metadata), stops early if so, and otherwise advances the window by
the fixed increment 1000 (round `i` scanning `[1000(i+1)+1, 1000(i+2)]`)
and re-runs the scheduler over only the platforms still missing a result:
the code equals the specification policy. -/
theorem claim_C5_adaptive (probe : PlatformArch → Nat → Bool)
    (version source : Str) (arches : List PlatformArch) :
    adaptiveSearch probe version source arches =
      adaptiveSpec probe version source arches := by
  unfold adaptiveSearch adaptiveSpec
  exact adaptiveRounds_eq_spec probe version source arches 15 0 _

/-- Outcome of one HEAD request as `check_url` observes it: an HTTP status
code, or one of the reqwest error classes — timeout, DNS failure,
connection error — which the Rust `match` treats alike as `Err(_)`. -/
inductive HttpOutcome where
  | status (code : Nat)
  | timeout
  | dnsFailure
  | connectionError
deriving DecidableEq

/-- reqwest `StatusCode::is_success`: the 2xx range. -/
def is_success (code : Nat) : Bool :=
  decide (200 ≤ code) && decide (code ≤ 299)

/-- Embeds `check_url` (UI main.rs lines 116-136; CLI main.rs lines 84-89
is the same classification without the logging): an HTTP success status
yields `Some((url, platform))`; every other status — the logged 429
included — and every network error yield `None`.  One probe issues exactly
one request: there is no retry path in the function. -/
def check_url (url : Str) (platform : PlatformArch) (r : HttpOutcome) :
    Option (Str × PlatformArch) :=
  match r with
  | .status c => if is_success c then some (url, platform) else none
  | .timeout => none
  | .dnsFailure => none
  | .connectionError => none

/-- C8: the prober classifies an HTTP success as Found (carrying the url
and platform) and everything else — any non-success status including 429,
a timeout, a DNS failure, or a connection error — as NotFound, with no
retry. -/
theorem claim_C8_classification (url : Str) (platform : PlatformArch)
    (c : Nat) :
    (is_success c = true →
      check_url url platform (.status c) = some (url, platform)) ∧
    (is_success c = false → check_url url platform (.status c) = none) ∧
    check_url url platform (.status 429) = none ∧
    check_url url platform .timeout = none ∧
    check_url url platform .dnsFailure = none ∧
    check_url url platform .connectionError = none := by
  refine ⟨?_, ?_, by simp [check_url, is_success], rfl, rfl, rfl⟩
  · intro h
    simp [check_url, h]
  · intro h
    simp [check_url, h]

/-- C8 witness: the classification applied at status 200. -/
theorem claim_C8_witness :
    check_url ("u".data) PlatformArch.WinX64 (HttpOutcome.status 200) =
      some ("u".data, PlatformArch.WinX64) :=
  (claim_C8_classification ("u".data) PlatformArch.WinX64 200).1 (by decide)

/-- The inclusive `start..=end` over the UI's `i32` build numbers. -/
def intRange (start endI : Int) : List Int :=
  (List.range (endI + 1 - start).toNat).map (fun i : Nat => start + (i : Int))

/-- The (platform, number) pairs of the UI scheduler's nested loops
(platforms outer, numbers inner), in dispatch order. -/
def pairsToProbe (platforms : List PlatformArch) (start endI : Int) :
    List (PlatformArch × Int) :=
  platforms.flatMap (fun p => (intRange start endI).map (fun n => (p, n)))

/-- Embeds the admission loop of the UI `search_installers` (main.rs lines
194-265): the cancel flag is consulted before each (platform, number) pair
is dispatched (the code checks it at the loop head, inside the pause poll
and after acquiring a slot; one check per pair is the dispatch-trace
abstraction of those checkpoints) — once it reads true nothing further is
dispatched.  The pause flag delays but never skips a pair, so it does not
affect the trace. -/
def dispatchLoop (cancel : Nat → Bool) :
    List (PlatformArch × Int) → Nat → List (PlatformArch × Int)
  | [], _ => []
  | x :: rest, t =>
    if cancel t then [] else x :: dispatchLoop cancel rest (t + 1)

/-- The full dispatch trace of one `search_installers` invocation. -/
def search_dispatch (cancel : Nat → Bool) (platforms : List PlatformArch)
    (start endI : Int) : List (PlatformArch × Int) :=
  dispatchLoop cancel (pairsToProbe platforms start endI) 0

theorem dispatchLoop_nocancel (cancel : Nat → Bool)
    (hnc : ∀ t, cancel t = false) :
    ∀ (l : List (PlatformArch × Int)) (t : Nat), dispatchLoop cancel l t = l := by
  intro l
  induction l with
  | nil => intro t; rfl
  | cons x rest ih =>
    intro t
    rw [dispatchLoop, hnc t, ih (t + 1)]
    rfl

theorem mem_intRange (n start endI : Int) :
    n ∈ intRange start endI ↔ start ≤ n ∧ n ≤ endI := by
  unfold intRange
  rw [List.mem_map]
  constructor
  · rintro ⟨i, hi, rfl⟩
    rw [List.mem_range] at hi
    omega
  · intro h
    refine ⟨(n - start).toNat, ?_, ?_⟩
    · rw [List.mem_range]
      omega
    · omega

theorem intRange_nodup (start endI : Int) : (intRange start endI).Nodup := by
  unfold intRange
  refine List.Nodup.map ?_ (List.nodup_range _)
  intro a b hab
  dsimp only at hab
  omega

theorem count_map_pair_self (p : PlatformArch) (n : Int) (l : List Int) :
    List.count (p, n) (l.map (fun m => (p, m))) = List.count n l := by
  induction l with
  | nil => rfl
  | cons x rest ih =>
    by_cases hx : x = n
    · subst hx
      simp [List.count_cons, ih]
    · simp [List.count_cons, ih, hx, Prod.ext_iff]

theorem count_map_pair_other (p q : PlatformArch) (n : Int) (l : List Int)
    (hpq : q ≠ p) :
    List.count (p, n) (l.map (fun m => (q, m))) = 0 := by
  rw [List.count_eq_zero]
  intro hmem
  simp only [List.mem_map] at hmem
  obtain ⟨m, _, hm⟩ := hmem
  exact hpq (congrArg Prod.fst hm)

theorem count_pairs (platforms : List PlatformArch) (start endI : Int)
    (p : PlatformArch) (n : Int) (hnd : platforms.Nodup) :
    List.count (p, n) (pairsToProbe platforms start endI) =
      if p ∈ platforms ∧ n ∈ intRange start endI then 1 else 0 := by
  induction platforms with
  | nil => simp [pairsToProbe]
  | cons q rest ih =>
    simp only [List.nodup_cons] at hnd
    have hsplit : pairsToProbe (q :: rest) start endI =
        (intRange start endI).map (fun m => (q, m)) ++
          pairsToProbe rest start endI := by
      simp [pairsToProbe]
    rw [hsplit, List.count_append]
    by_cases hq : q = p
    · subst hq
      rw [count_map_pair_self]
      have hnotin : List.count (q, n) (pairsToProbe rest start endI) = 0 := by
        rw [ih hnd.2]
        simp [hnd.1]
      rw [hnotin]
      by_cases hmem : n ∈ intRange start endI
      · rw [List.count_eq_one_of_mem (intRange_nodup start endI) hmem]
        simp [hmem]
      · rw [List.count_eq_zero_of_not_mem hmem]
        simp [hmem]
    · rw [count_map_pair_other p q n _ hq, ih hnd.2]
      have hiff : (p ∈ q :: rest ∧ n ∈ intRange start endI) ↔
          (p ∈ rest ∧ n ∈ intRange start endI) := by
        constructor
        · rintro ⟨h1, h2⟩
          cases List.mem_cons.mp h1 with
          | inl h3 => exact absurd h3.symm hq
          | inr h3 => exact ⟨h3, h2⟩
        · rintro ⟨h1, h2⟩
          exact ⟨List.mem_cons_of_mem q h1, h2⟩
      rw [if_congr hiff rfl rfl]
      omega

/-- C6: in a run that is never cancelled, the scheduler dispatches exactly
one probe for every (platform, build number) pair with the platform in the
applicable list and the number in the inclusive `[start, end]`: no pair is
skipped and none is probed twice. -/
theorem claim_C6_coverage (cancel : Nat → Bool)
    (platforms : List PlatformArch) (start endI : Int) (p : PlatformArch)
    (n : Int) (hnc : ∀ t, cancel t = false) (hnd : platforms.Nodup) :
    List.count (p, n) (search_dispatch cancel platforms start endI) =
      if p ∈ platforms ∧ start ≤ n ∧ n ≤ endI then 1 else 0 := by
  unfold search_dispatch
  rw [dispatchLoop_nocancel cancel hnc, count_pairs platforms start endI p n hnd]
  have hiff : (p ∈ platforms ∧ n ∈ intRange start endI) ↔
      (p ∈ platforms ∧ start ≤ n ∧ n ≤ endI) := by
    rw [mem_intRange]
  rw [if_congr hiff rfl rfl]

/-- C6 witness: coverage at a concrete never-cancelled run. -/
theorem claim_C6_witness :
    List.count (PlatformArch.WinX64, (1 : Int))
        (search_dispatch (fun _ => false) [PlatformArch.WinX64] 0 2) = 1 := by
  have h := claim_C6_coverage (fun _ => false) [PlatformArch.WinX64] 0 2
    PlatformArch.WinX64 1 (fun _ => rfl) (by decide)
  rw [h]
  decide

/-- Embeds the per-version platform pruning of the UI spawn loop (main.rs
lines 522-528): drop Windows x86 when it is selected together with other
platforms and the policy rejects the version. -/
def platforms_for_version (base : List PlatformArch) (v : Str) :
    List PlatformArch :=
  if PlatformArch.WinX86 ∈ base ∧ 1 < base.length ∧
      should_use_win_x86_ui v = false then
    base.filter (fun p => decide (p ≠ PlatformArch.WinX86))
  else base

/-- The per-version applicable platform count of `start_search`
(UI main.rs lines 475-479): the selected count, minus one in exactly the
pruning situation above. -/
def cntFor (base : List PlatformArch) (v : Str) : Nat :=
  if PlatformArch.WinX86 ∈ base ∧ 1 < base.length ∧
      should_use_win_x86_ui v = false then
    base.length - 1
  else base.length

/-- Two's-complement wrap-around of an arbitrary integer into the `i32`
range: the release-mode semantics of Rust `i32` arithmetic and of the
`usize as i32` cast. -/
def wrapI32 (x : Int) : Int :=
  (x + 2147483648) % 4294967296 - 2147483648

/-- Rust `x as u64` on an `i32` value: two's-complement reinterpretation
(sign extension into the `u64` bit pattern). -/
def i32ToU64 (x : Int) : Nat :=
  (x % 18446744073709551616).toNat

/-- Rust `u64::saturating_add`. -/
def satAddU64 (a b : Nat) : Nat :=
  min (a + b) 18446744073709551615

/-- Embeds `total_work` as computed up front by `start_search` (UI main.rs
lines 474-484): per version,
`per_version = ((end - start + 1) * cnt as i32) as u64`, evaluated in
wrapping `i32` arithmetic (release semantics: subtraction, increment, the
`usize as i32` cast of the count and the multiplication all wrap), the
result reinterpreted into `u64`, and the per-version values accumulated
with `u64::saturating_add`. -/
def total_work_calc (versions : List Str) (base : List PlatformArch)
    (start endI : Int) : Nat :=
  versions.foldl
    (fun acc v =>
      satAddU64 acc (i32ToU64 (wrapI32 (wrapI32 (wrapI32 (endI - start) + 1) *
        wrapI32 (cntFor base v : Int))))) 0

/-- Embeds the dispatch trace of a whole run (UI spawn loop, main.rs lines
505-557): versions in order, each over its pruned platform list (skipped
when empty, mirroring the `continue`); after each version the run breaks
when the cancel flag is set.  The `processed` counter increments once per
completed probe among the dispatched tasks, so its final value is bounded
by the length of this trace. -/
def run_dispatch (cancel : Nat → Bool) (base : List PlatformArch)
    (start endI : Int) :
    List Str → Nat → List (Str × PlatformArch × Int)
  | [], _ => []
  | v :: rest, t =>
    if platforms_for_version base v = [] then
      run_dispatch cancel base start endI rest t
    else
      (dispatchLoop cancel
          (pairsToProbe (platforms_for_version base v) start endI) t).map
        (fun pr => (v, pr)) ++
      (if cancel (t + (dispatchLoop cancel
            (pairsToProbe (platforms_for_version base v) start endI) t).length)
       then []
       else run_dispatch cancel base start endI rest
          (t + (dispatchLoop cancel
            (pairsToProbe (platforms_for_version base v) start endI) t).length))

theorem toNat_mul_natCast (a : Int) (b : Nat) :
    (a * (b : Int)).toNat = a.toNat * b := by
  rcases Int.le_or_lt 0 a with h | h
  · obtain ⟨n, rfl⟩ := Int.eq_ofNat_of_zero_le h
    norm_cast
  · have h1 : a * (b : Int) ≤ 0 :=
      mul_nonpos_iff.mpr (Or.inr ⟨le_of_lt h, Int.natCast_nonneg b⟩)
    rw [Int.toNat_of_nonpos h1, Int.toNat_of_nonpos (le_of_lt h), Nat.zero_mul]

theorem filter_ne_length (base : List PlatformArch) (hnd : base.Nodup)
    (hmem : PlatformArch.WinX86 ∈ base) :
    (base.filter (fun p => decide (p ≠ PlatformArch.WinX86))).length =
      base.length - 1 := by
  induction base with
  | nil => simp at hmem
  | cons x rest ih =>
    rw [List.nodup_cons] at hnd
    by_cases hx : x = PlatformArch.WinX86
    · subst hx
      have hrest : rest.filter (fun p => decide (p ≠ PlatformArch.WinX86)) =
          rest := by
        rw [List.filter_eq_self]
        intro y hy
        simp only [decide_eq_true_eq]
        intro hc
        rw [hc] at hy
        exact hnd.1 hy
      have hfc : (PlatformArch.WinX86 :: rest).filter
          (fun p => decide (p ≠ PlatformArch.WinX86)) = rest := by
        rw [List.filter_cons, if_neg (by decide)]
        exact hrest
      rw [hfc, List.length_cons]
      omega
    · have hmem' : PlatformArch.WinX86 ∈ rest := by
        cases List.mem_cons.mp hmem with
        | inl h1 => exact absurd h1.symm hx
        | inr h1 => exact h1
      have hlen : 1 ≤ rest.length :=
        List.length_pos.mpr (List.ne_nil_of_mem hmem')
      have hkeep : decide (x ≠ PlatformArch.WinX86) = true := by
        simp [hx]
      simp only [List.filter_cons, hkeep, if_true, List.length_cons,
        ih hnd.2 hmem']
      omega

theorem platforms_for_length (base : List PlatformArch) (v : Str)
    (hnd : base.Nodup) :
    (platforms_for_version base v).length = cntFor base v := by
  unfold platforms_for_version cntFor
  split
  · rename_i hcond
    exact filter_ne_length base hnd hcond.1
  · rfl

theorem pairsToProbe_length (platforms : List PlatformArch) (s e : Int) :
    (pairsToProbe platforms s e).length =
      platforms.length * (intRange s e).length := by
  induction platforms with
  | nil => simp [pairsToProbe]
  | cons q rest ih =>
    have hsplit : pairsToProbe (q :: rest) s e =
        (intRange s e).map (fun n => (q, n)) ++ pairsToProbe rest s e := by
      simp [pairsToProbe]
    rw [hsplit, List.length_append, List.length_map, ih, List.length_cons]
    ring

theorem dispatchLoop_length_le (cancel : Nat → Bool) :
    ∀ (l : List (PlatformArch × Int)) (t : Nat),
      (dispatchLoop cancel l t).length ≤ l.length := by
  intro l
  induction l with
  | nil => intro t; simp [dispatchLoop]
  | cons x rest ih =>
    intro t
    rw [dispatchLoop]
    split
    · simp
    · simp only [List.length_cons]
      have := ih (t + 1)
      omega

theorem wrapI32_eq_self (x : Int) (h1 : -2147483648 ≤ x)
    (h2 : x ≤ 2147483647) : wrapI32 x = x := by
  unfold wrapI32
  omega

theorem i32ToU64_of_small (x : Int) (h1 : 0 ≤ x) (h2 : x ≤ 2147483647) :
    i32ToU64 x = x.toNat := by
  unfold i32ToU64
  omega

/-- On an overflow-free per-version computation the wrapped `i32` term is
the exact product. -/
theorem term_exact (base : List PlatformArch) (v : Str) (s e : Int)
    (hs : s ≤ e) (hr : e - s + 1 ≤ 2147483647)
    (hp : (e - s + 1) * (cntFor base v : Int) ≤ 2147483647) :
    i32ToU64 (wrapI32 (wrapI32 (wrapI32 (e - s) + 1) *
        wrapI32 (cntFor base v : Int))) =
      (e - s + 1).toNat * cntFor base v := by
  have hc0 : (0 : Int) ≤ (cntFor base v : Int) := Int.natCast_nonneg _
  have hone : (1 : Int) ≤ e - s + 1 := by omega
  have hcnt : (cntFor base v : Int) ≤ 2147483647 := by
    have hmul := le_mul_of_one_le_left hc0 hone
    linarith
  have hprod0 : (0 : Int) ≤ (e - s + 1) * (cntFor base v : Int) :=
    mul_nonneg (by omega) hc0
  have h1 : wrapI32 (e - s) = e - s := wrapI32_eq_self _ (by omega) (by omega)
  rw [h1]
  have h2 : wrapI32 (e - s + 1) = e - s + 1 :=
    wrapI32_eq_self _ (by omega) (by omega)
  rw [h2]
  have h3 : wrapI32 (cntFor base v : Int) = (cntFor base v : Int) :=
    wrapI32_eq_self _ (by linarith) (by linarith)
  rw [h3]
  have h4 : wrapI32 ((e - s + 1) * (cntFor base v : Int)) =
      (e - s + 1) * (cntFor base v : Int) :=
    wrapI32_eq_self _ (by linarith) hp
  rw [h4, i32ToU64_of_small _ hprod0 hp, toNat_mul_natCast]

/-- On an overflow-free request the saturating fold computes the exact
planned sum. -/
theorem total_calc_exact (base : List PlatformArch) (s e : Int)
    (hs : s ≤ e) (hr : e - s + 1 ≤ 2147483647) :
    ∀ (versions : List Str) (acc : Nat),
      (∀ v ∈ versions, (e - s + 1) * (cntFor base v : Int) ≤ 2147483647) →
      acc + (versions.map (fun v => (e - s + 1).toNat * cntFor base v)).sum ≤
        18446744073709551615 →
      versions.foldl
        (fun a v =>
          satAddU64 a (i32ToU64 (wrapI32 (wrapI32 (wrapI32 (e - s) + 1) *
            wrapI32 (cntFor base v : Int))))) acc =
        acc + (versions.map (fun v => (e - s + 1).toNat * cntFor base v)).sum := by
  intro versions
  induction versions with
  | nil =>
    intro acc _ _
    simp
  | cons v rest ih =>
    intro acc hp hsum
    rw [List.map_cons, List.sum_cons] at hsum ⊢
    rw [List.foldl_cons, term_exact base v s e hs hr (hp v (by simp))]
    have hfit : acc + (e - s + 1).toNat * cntFor base v ≤
        18446744073709551615 :=
      le_trans (Nat.add_le_add_left (Nat.le_add_right _ _) acc) hsum
    have hsat : satAddU64 acc ((e - s + 1).toNat * cntFor base v) =
        acc + (e - s + 1).toNat * cntFor base v := min_eq_left hfit
    rw [hsat, ih (acc + (e - s + 1).toNat * cntFor base v)
      (fun w hw => hp w (List.mem_cons_of_mem v hw))
      (by rw [Nat.add_assoc]; exact hsum)]
    rw [Nat.add_assoc]

/-- The dispatch trace is bounded by the exact (unwrapped) planned sum. -/
theorem run_dispatch_le_sum (cancel : Nat → Bool) (base : List PlatformArch)
    (s e : Int) (hnd : base.Nodup) :
    ∀ (versions : List Str) (t : Nat),
      (run_dispatch cancel base s e versions t).length ≤
        (versions.map (fun v => (e - s + 1).toNat * cntFor base v)).sum := by
  intro versions
  induction versions with
  | nil =>
    intro t
    simp [run_dispatch]
  | cons v rest ih =>
    intro t
    rw [run_dispatch, List.map_cons, List.sum_cons]
    have hterm : (dispatchLoop cancel
        (pairsToProbe (platforms_for_version base v) s e) t).length ≤
        (e - s + 1).toNat * cntFor base v := by
      have h1 := dispatchLoop_length_le cancel
        (pairsToProbe (platforms_for_version base v) s e) t
      rw [pairsToProbe_length, platforms_for_length base v hnd] at h1
      have h4 : (intRange s e).length = (e + 1 - s).toNat := by
        simp [intRange]
      rw [h4] at h1
      have h6 : (e - s + 1).toNat = (e + 1 - s).toNat := by omega
      rw [h6, Nat.mul_comm]
      exact h1
    split
    · exact le_trans (ih t) (Nat.le_add_left _ _)
    · rw [List.length_append, List.length_map]
      split
      · simp only [List.length_nil, Nat.add_zero]
        exact le_trans hterm (Nat.le_add_right _ _)
      · exact Nat.add_le_add hterm (ih (t + (dispatchLoop cancel
          (pairsToProbe (platforms_for_version base v) s e) t).length))

/-- C7 counterexample: the claim as stated fails on the program.  On the
validated request start = 0, end = 2147483647 (i32 MAX) with the two
platforms Windows x64 and Windows arm64 selected, the wrapping `i32`
computation `(end - start + 1) * cnt` yields 0, so the planned total is 0
rather than the claimed sum 2^32 — while the never-cancelled run
dispatches 2^32 probes, so the processed counter exceeds the planned
total and processed over the denominator (1, since the total is 0)
exceeds 1. -/
theorem claim_C7_counterexample :
    total_work_calc ["1.2.3.4.gabcdef12".data]
        [PlatformArch.WinX64, PlatformArch.WinArm64] 0 2147483647 = 0 ∧
    (run_dispatch (fun _ => false)
        [PlatformArch.WinX64, PlatformArch.WinArm64] 0 2147483647
        ["1.2.3.4.gabcdef12".data] 0).length = 4294967296 := by
  constructor
  · decide
  · have hplat : platforms_for_version
        [PlatformArch.WinX64, PlatformArch.WinArm64]
        ("1.2.3.4.gabcdef12".data) =
        [PlatformArch.WinX64, PlatformArch.WinArm64] := by decide
    rw [run_dispatch, hplat,
      if_neg (by decide :
        ¬([PlatformArch.WinX64, PlatformArch.WinArm64] :
          List PlatformArch) = []),
      dispatchLoop_nocancel (fun _ => false) (fun _ => rfl)]
    simp only [List.length_append, List.length_map]
    have hnil : run_dispatch (fun _ => false)
        [PlatformArch.WinX64, PlatformArch.WinArm64] 0 2147483647 []
        (0 + (pairsToProbe [PlatformArch.WinX64, PlatformArch.WinArm64]
          0 2147483647).length) = [] := rfl
    rw [if_neg (by simp), hnil, pairsToProbe_length]
    have hlen : (intRange 0 2147483647).length = 2147483648 := by
      simp [intRange]
    rw [hlen]
    decide

/-- C7 (amended): on overflow-free requests — `start ≤ end`, the inclusive
range size and every per-version product fitting in `i32`, and the exact
planned sum fitting in `u64` — the planned total is computed up front as
the sum over versions of (end − start + 1) times the applicable platform
count (Windows x86 dropped when the policy rejects the version and other
platforms remain); the dispatched-probe count (an upper bound on the
processed counter, which increments once per completed probe among the
dispatched tasks) never exceeds it, and never exceeds the progress
denominator (`total`, or 1 when the total is 0), so the derived progress
processed/total never exceeds 1.  Outside that domain the `i32`
multiplication wraps and the invariant fails in the program (see the
counterexample). -/
theorem claim_C7_progress (cancel : Nat → Bool) (versions : List Str)
    (base : List PlatformArch) (start endI : Int) (hnd : base.Nodup)
    (hs : start ≤ endI) (hr : endI - start + 1 ≤ 2147483647)
    (hprod : ∀ v ∈ versions,
      (endI - start + 1) * (cntFor base v : Int) ≤ 2147483647)
    (hsum : (versions.map (fun v =>
        (endI - start + 1).toNat * cntFor base v)).sum ≤
      18446744073709551615) :
    total_work_calc versions base start endI =
      (versions.map (fun v =>
        (endI - start + 1).toNat *
          (platforms_for_version base v).length)).sum ∧
    (run_dispatch cancel base start endI versions 0).length ≤
      total_work_calc versions base start endI ∧
    (run_dispatch cancel base start endI versions 0).length ≤
      (if total_work_calc versions base start endI = 0 then 1
       else total_work_calc versions base start endI) := by
  have hplat : ∀ vs : List Str,
      (vs.map (fun v => (endI - start + 1).toNat *
        (platforms_for_version base v).length)).sum =
      (vs.map (fun v => (endI - start + 1).toNat * cntFor base v)).sum := by
    intro vs
    induction vs with
    | nil => rfl
    | cons v rest ihv =>
      rw [List.map_cons, List.map_cons, List.sum_cons, List.sum_cons, ihv,
        platforms_for_length base v hnd]
  have htotal : total_work_calc versions base start endI =
      (versions.map (fun v =>
        (endI - start + 1).toNat * cntFor base v)).sum := by
    unfold total_work_calc
    rw [total_calc_exact base start endI hs hr versions 0 hprod
      (by simpa using hsum)]
    simp
  have hbound : (run_dispatch cancel base start endI versions 0).length ≤
      total_work_calc versions base start endI := by
    rw [htotal]
    exact run_dispatch_le_sum cancel base start endI hnd versions 0
  refine ⟨by rw [htotal, hplat], hbound, ?_⟩
  split
  · rename_i h0
    rw [h0] at hbound
    omega
  · exact hbound

/-- C7 witness: the amended progress bound at a concrete overflow-free
run. -/
theorem claim_C7_witness :
    (run_dispatch (fun _ => false) [PlatformArch.WinX64] 0 2
        ["1.2.3.4.gabcdef12".data] 0).length ≤
      total_work_calc ["1.2.3.4.gabcdef12".data] [PlatformArch.WinX64] 0 2 :=
  (claim_C7_progress (fun _ => false) ["1.2.3.4.gabcdef12".data]
    [PlatformArch.WinX64] 0 2 (by decide) (by decide) (by decide)
    (by decide) (by decide)).2.1

/-- Rust `str::trim`: strip whitespace from both ends (`Char.isWhitespace`
models the Unicode class on the ASCII inputs involved). -/
def trimStr (s : Str) : Str :=
  ((s.dropWhile Char.isWhitespace).reverse.dropWhile Char.isWhitespace).reverse

/-- The character class `[0-9a-f]` of the version regex. -/
def isHexLower (c : Char) : Bool :=
  c.isDigit || (decide ('a' ≤ c) && decide (c ≤ 'f'))

/-- Embeds `validate_version` (UI main.rs lines 98-102), the regex
`^\d+\.\d+\.\d+\.\d+\.g[0-9a-f]{8}$`: exactly five dot-separated pieces,
the first four nonempty digit runs, the fifth a `g` followed by eight
lowercase hex characters (no piece can contain a dot, so the split form is
equivalent to the anchored regex). -/
def validate_version (s : Str) : Bool :=
  match splitDot s with
  | [a, b, c, d, e] =>
    decide (a ≠ []) && a.all Char.isDigit &&
    (decide (b ≠ []) && b.all Char.isDigit) &&
    (decide (c ≠ []) && c.all Char.isDigit) &&
    (decide (d ≠ []) && d.all Char.isDigit) &&
    (match e with
     | 'g' :: hx => decide (hx.length = 8) && hx.all isHexLower
     | _ => false)
  | _ => false

/-- Outcome of the `start_search` validation prefix: an error message shown
to the user (and no run), or a started run. -/
inductive StartResult where
  | error (msg : Str)
  | started (versions : List Str) (start endI : Int)
      (platforms : List PlatformArch)
deriving DecidableEq

/-- Embeds the validation prefix of `SpotifyFinderApp::start_search`
(UI main.rs lines 426-464): trim the input lines and keep the nonempty
ones passing `validate_version`; reject when none survive; parse the range
fields with the defaults 0 and 5000 (`unwrap_or`); reject an inverted
range; reject an empty platform selection; reject the
single-WinX86-single-version case when the policy refuses the version;
otherwise the run starts. -/
def start_search (lines : List Str) (range_from range_to : Str)
    (platforms : List PlatformArch) : StartResult :=
  if (lines.map trimStr).filter
      (fun s => decide (s ≠ []) && validate_version s) = [] then
    .error ("Error: No valid versions provided".data)
  else if (parseI32 range_to).getD 5000 < (parseI32 range_from).getD 0 then
    .error ("Error: End range must be >= start range".data)
  else if platforms = [] then
    .error ("Error: No platforms selected".data)
  else if platforms = [PlatformArch.WinX86] ∧
      ((lines.map trimStr).filter
        (fun s => decide (s ≠ []) && validate_version s)).length = 1 ∧
      should_use_win_x86_ui (((lines.map trimStr).filter
        (fun s => decide (s ≠ []) && validate_version s)).headI) = false then
    .error (("Warning: x86 architecture for Windows is no longer supported" ++
      " for versions newer than 1.2.53").data)
  else
    .started ((lines.map trimStr).filter
        (fun s => decide (s ≠ []) && validate_version s))
      ((parseI32 range_from).getD 0) ((parseI32 range_to).getD 5000) platforms

/-- Probes issued for a `StartResult`: none for a rejected request, the
full dispatch of the spawned (never-cancelled) run otherwise. -/
def probesOf (r : StartResult) : List (Str × PlatformArch × Int) :=
  match r with
  | .error _ => []
  | .started versions start endI platforms =>
    run_dispatch (fun _ => false) platforms start endI versions 0

/-- C9 counterexample: a request containing a version string that fails
validation is not rejected when another line is valid — the malformed line
is silently dropped and the run starts. -/
theorem claim_C9_counterexample :
    validate_version ("not-a-version".data) = false ∧
    start_search ["not-a-version".data, "1.1.68.632.g2b11de83".data]
        ("0".data) ("10".data) [PlatformArch.WinX64] =
      .started ["1.1.68.632.g2b11de83".data] 0 10 [PlatformArch.WinX64] := by
  constructor
  · decide
  · decide

/-- C9 (amended): a request is rejected before any probe is issued — with
the specific human-readable reason — when the version lines yield no valid
version after trimming and filtering, when the parsed range is inverted
(`end < start`), or when the platform selection is empty; and a rejected
request issues no probes.  Individually malformed version lines in an
otherwise valid list are silently dropped rather than rejecting the run
(see the counterexample). -/
theorem claim_C9_validation (lines : List Str) (range_from range_to : Str)
    (platforms : List PlatformArch) :
    ((lines.map trimStr).filter
        (fun s => decide (s ≠ []) && validate_version s) = [] →
      start_search lines range_from range_to platforms =
        .error ("Error: No valid versions provided".data)) ∧
    ((lines.map trimStr).filter
        (fun s => decide (s ≠ []) && validate_version s) ≠ [] →
      (parseI32 range_to).getD 5000 < (parseI32 range_from).getD 0 →
      start_search lines range_from range_to platforms =
        .error ("Error: End range must be >= start range".data)) ∧
    ((lines.map trimStr).filter
        (fun s => decide (s ≠ []) && validate_version s) ≠ [] →
      ¬ (parseI32 range_to).getD 5000 < (parseI32 range_from).getD 0 →
      platforms = [] →
      start_search lines range_from range_to platforms =
        .error ("Error: No platforms selected".data)) ∧
    (∀ msg, start_search lines range_from range_to platforms = .error msg →
      probesOf (start_search lines range_from range_to platforms) = []) := by
  refine ⟨?_, ?_, ?_, ?_⟩
  · intro h
    unfold start_search
    rw [if_pos h]
  · intro h1 h2
    unfold start_search
    rw [if_neg h1, if_pos h2]
  · intro h1 h2 h3
    unfold start_search
    rw [if_neg h1, if_neg h2, if_pos h3]
  · intro msg h
    rw [h]
    rfl

/-- C9 witness: the validation theorem at a concrete rejected request. -/
theorem claim_C9_witness :
    start_search [] ("0".data) ("10".data) [PlatformArch.WinX64] =
      .error ("Error: No valid versions provided".data) :=
  (claim_C9_validation [] ("0".data) ("10".data) [PlatformArch.WinX64]).1
    (by decide)
